import Mathlib

/-!
Verification of the deb822 "lossy" parser (`src/lossy.rs`) of the
debian-control repository: the stanza assembler `Deb822::from_str`, the
document model (`Field`, `Paragraph`, `Deb822`), `Paragraph::get` and the
`Display` implementations.

Rust strings are embedded as `List Char`; machine panics
(`unreachable!`, `assert_eq!` failure) are embedded as the explicit
result `PResult.panicked`.  The tokenizer (`crate::lex`) is not part of
the provided sources, so it is modelled from the specification's §4.1
grammar (`lexSpec` below); the assembler itself is translated line by
line from `src/lossy.rs`.
-/

namespace DebControl

/-- Character-list embedding of Rust `String` / `&str`. -/
abbrev Str := List Char

/-- Token kinds of `crate::lex::SyntaxKind` as used by `lossy.rs`.  The
last four are syntax-tree node kinds that the assembler treats as
`unreachable!`. -/
inductive SyntaxKind where
  | KEY
  | COLON
  | VALUE
  | WHITESPACE
  | INDENT
  | NEWLINE
  | COMMENT
  | ERROR
  | EMPTY_LINE
  | PARAGRAPH
  | ROOT
  | ENTRY
deriving DecidableEq, Repr

/-- A lexed token: kind plus its exact source text. -/
structure Token where
  kind : SyntaxKind
  text : Str
deriving DecidableEq, Repr

/-- `lossy::Error` (lines 3-7 of `lossy.rs`). -/
inductive Error where
  | UnexpectedToken (kind : SyntaxKind) (text : Str)
  | UnexpectedEof
deriving DecidableEq, Repr

/-- `lossy::Field` (lines 18-22). -/
structure Field where
  name : Str
  value : Str
deriving DecidableEq, Repr

/-- `lossy::Paragraph` (lines 24-27). -/
structure Paragraph where
  fields : List Field
deriving DecidableEq, Repr

/-- `lossy::Deb822` (line 90-91). -/
structure Deb822 where
  paragraphs : List Paragraph
deriving DecidableEq, Repr

/-- Result of running the parser: `Ok`, `Err`, or a Rust panic
(`unreachable!` at line 119 or the `assert_eq!` at line 188). -/
inductive PResult (α : Type) where
  | ok (val : α)
  | err (e : Error)
  | panicked
deriving DecidableEq, Repr

/-- `Paragraph::get` body (lines 30-37): first field with the exact
(case-sensitive) name. -/
def getFields : List Field → Str → Option Str
  | [], _ => none
  | f :: rest, name => if f.name = name then some f.value else getFields rest name

/-- `Paragraph::get` (lines 30-37). -/
def Paragraph.get (p : Paragraph) (name : Str) : Option Str :=
  getFields p.fields name

/-- `Display for Field` (lines 63-67): `write!(f, "{}: {}", name, value)`. -/
def Field.fmt (f : Field) : Str :=
  f.name ++ ':' :: ' ' :: f.value

/-- `Display for Paragraph` (lines 69-76): for each field,
`writeln!(f, "{}: {}\n", name, value)` — the format string itself ends in
a newline and `writeln!` appends another one. -/
def Paragraph.fmt (p : Paragraph) : Str :=
  p.fields.foldr (fun f acc => Field.fmt f ++ '\n' :: '\n' :: acc) []

/-- `Display for Deb822` (lines 78-88): `writeln!(f)?` (a bare newline)
before every paragraph except the first. -/
def Deb822.fmt (d : Deb822) : Str :=
  match d.paragraphs with
  | [] => []
  | p :: ps => p.fmt ++ ps.foldr (fun q acc => ('\n' :: q.fmt) ++ acc) []

/-- Rust `String::pop`: split off the last character. -/
def popChar (v : Str) : Option (Str × Char) :=
  match v.getLast? with
  | some c => some (v.dropLast, c)
  | none => none

/-- Lines 208-211: push the still-open paragraph if nonempty, return the
document. -/
def finalize (pars : List Paragraph) (cur : List Field) : PResult Deb822 :=
  if cur = [] then .ok ⟨pars⟩ else .ok ⟨pars ++ [⟨cur⟩]⟩

/-- Line 188 followed by end of input: `assert_eq!(value.pop(), Some('\n'))`
then finish the document. -/
def finishEof (pars : List Paragraph) (cur : List Field) (k v : Str) :
    PResult Deb822 :=
  match popChar v with
  | some (v2, c) =>
    if c = '\n' then finalize pars (cur ++ [⟨k, v2⟩]) else .panicked
  | none => .panicked

/-- Control point of the assembler's token cursor inside
`Deb822::from_str` (lines 110-212).  `top` is the head of the
`while let` loop (line 117); `expectColon` is line 132; `skipWS` is the
whitespace-skipping loop at lines 138-140; `firstLine` is the first-line
value loop at lines 142-152 (the accumulated value is carried);
`contCheck` is the outer continuation test at line 157 (the value already
includes the `'\n'` pushed at line 154); `contInner` is the inner
continuation loop at lines 159-184; `comment` is the comment-skipping
loop at lines 194-198.  Each mode carries the enclosing `KEY` token's
text where the code still uses it. -/
inductive Mode where
  | top
  | expectColon (key : Str)
  | skipWS (key : Str)
  | firstLine (key : Str) (value : Str)
  | contCheck (key : Str) (value : Str)
  | contInner (key : Str) (value : Str)
  | comment
deriving DecidableEq, Repr

/-- End of the token stream in each control point: the `while let`/`for`
loops simply end, `expectColon` is line 135's `UnexpectedEof`, and every
field-building mode runs line 154 (if not yet run) and the trim at
line 188. -/
def atEof (pars : List Paragraph) (cur : List Field) : Mode → PResult Deb822
  | .top => finalize pars cur
  | .comment => finalize pars cur
  | .expectColon _ => .err .UnexpectedEof
  | .skipWS k => finishEof pars cur k ['\n']
  | .firstLine k v => finishEof pars cur k (v ++ ['\n'])
  | .contCheck k v => finishEof pars cur k v
  | .contInner k v => finishEof pars cur k v

/-- The token-cursor state machine of `Deb822::from_str` (lines 110-212),
with the nested loops flattened into the `Mode` argument so that every
step consumes the head token (loop exits that re-examine a peeked token
are inlined).  `pars` is `paragraphs`, `cur` is `current_paragraph`. -/
def mainLoop : List Token → List Paragraph → List Field → Mode → PResult Deb822
  | [], pars, cur, m => atEof pars cur m
  | t :: rest, pars, cur, m =>
    match m with
    | .top =>
      match t.kind with
      | .EMPTY_LINE | .PARAGRAPH | .ROOT | .ENTRY => .panicked
      | .INDENT | .COLON | .ERROR => .err (.UnexpectedToken t.kind t.text)
      | .WHITESPACE => mainLoop rest pars cur .top
      | .KEY => mainLoop rest pars cur (.expectColon t.text)
      | .VALUE => .err (.UnexpectedToken t.kind t.text)
      | .COMMENT => mainLoop rest pars cur .comment
      | .NEWLINE =>
        if cur = [] then mainLoop rest pars cur .top
        else mainLoop rest (pars ++ [⟨cur⟩]) [] .top
    | .expectColon k =>
      if t.kind = .COLON then mainLoop rest pars cur (.skipWS k)
      else .err (.UnexpectedToken t.kind t.text)
    | .skipWS k =>
      match t.kind with
      | .WHITESPACE => mainLoop rest pars cur (.skipWS k)
      | .VALUE => mainLoop rest pars cur (.firstLine k t.text)
      | .NEWLINE => mainLoop rest pars cur (.contCheck k ['\n'])
      | _ => .err (.UnexpectedToken t.kind t.text)
    | .firstLine k v =>
      match t.kind with
      | .VALUE => mainLoop rest pars cur (.firstLine k t.text)
      | .NEWLINE => mainLoop rest pars cur (.contCheck k (v ++ ['\n']))
      | _ => .err (.UnexpectedToken t.kind t.text)
    | .contCheck k v =>
      if t.kind = .INDENT then mainLoop rest pars cur (.contInner k v)
      else
        match popChar v with
        | some (v2, c) =>
          if c = '\n' then
            match t.kind with
            | .EMPTY_LINE | .PARAGRAPH | .ROOT | .ENTRY => .panicked
            | .INDENT | .COLON | .ERROR => .err (.UnexpectedToken t.kind t.text)
            | .WHITESPACE => mainLoop rest pars (cur ++ [⟨k, v2⟩]) .top
            | .KEY => mainLoop rest pars (cur ++ [⟨k, v2⟩]) (.expectColon t.text)
            | .VALUE => .err (.UnexpectedToken t.kind t.text)
            | .COMMENT => mainLoop rest pars (cur ++ [⟨k, v2⟩]) .comment
            | .NEWLINE =>
              if cur ++ [(⟨k, v2⟩ : Field)] = [] then
                mainLoop rest pars (cur ++ [⟨k, v2⟩]) .top
              else mainLoop rest (pars ++ [⟨cur ++ [⟨k, v2⟩]⟩]) [] .top
          else .panicked
        | none => .panicked
    | .contInner k v =>
      match t.kind with
      | .VALUE => mainLoop rest pars cur (.contInner k (v ++ t.text))
      | .COMMENT => mainLoop rest pars cur (.contInner k v)
      | .NEWLINE => mainLoop rest pars cur (.contCheck k (v ++ t.text))
      | .KEY =>
        match popChar v with
        | some (v2, c) =>
          if c = '\n' then
            mainLoop rest pars (cur ++ [⟨k, v2⟩]) (.expectColon t.text)
          else .panicked
        | none => .panicked
      | _ => .err (.UnexpectedToken t.kind k)
    | .comment =>
      if t.kind = .NEWLINE then mainLoop rest pars cur .top
      else mainLoop rest pars cur .comment

/-- `Deb822::from_str` applied to an already-lexed token sequence
(lines 112-212). -/
def fromTokens (ts : List Token) : PResult Deb822 :=
  mainLoop ts [] [] .top

/-- Space or tab, the line-internal whitespace of the format. -/
def isLineWs (c : Char) : Bool := c = ' ' || c = '\t'

/-- Split a line at its first `':'`: `some (before, after)`. -/
def splitColon : Str → Option (Str × Str)
  | [] => none
  | c :: cs =>
    if c = ':' then some ([], cs)
    else (splitColon cs).map (fun p => (c :: p.1, p.2))

/-- Modelled from the spec: the tokenizer's classification of one line's
content (§4.1 of the spec; `crate::lex` is not among the provided
sources).  A line starting with `'#'` is a `COMMENT`; leading whitespace
is an `INDENT` followed by the rest as a `VALUE`; a line starting with
`':'` is an `ERROR` token; otherwise the text up to the first `':'` is a
`KEY`, the `':'` a `COLON`, whitespace after it a `WHITESPACE`, and the
remainder a `VALUE`; empty pieces produce no token. -/
def lexContent : Str → List Token
  | [] => []
  | c :: cs =>
    if c = '#' then [⟨.COMMENT, c :: cs⟩]
    else if isLineWs c then
      let ind := (c :: cs).takeWhile isLineWs
      let restLine := (c :: cs).dropWhile isLineWs
      ⟨.INDENT, ind⟩ :: (if restLine = [] then [] else [⟨.VALUE, restLine⟩])
    else if c = ':' then [⟨.ERROR, c :: cs⟩]
    else
      match splitColon (c :: cs) with
      | none => [⟨.KEY, c :: cs⟩]
      | some (key, after) =>
        let ws := after.takeWhile isLineWs
        let val := after.dropWhile isLineWs
        ⟨.KEY, key⟩ :: ⟨.COLON, [':']⟩ ::
          ((if ws = [] then [] else [⟨.WHITESPACE, ws⟩]) ++
            (if val = [] then [] else [⟨.VALUE, val⟩]))

/-- Modelled from the spec: one line = classified content plus its
`NEWLINE` token carrying the literal terminator (§4.1: "its source text
preserved, to support both line-ending styles"); the final line may have
no terminator. -/
def lexLine (content term : Str) : List Token :=
  lexContent content ++ (if term = [] then [] else [⟨.NEWLINE, term⟩])

/-- One character step of the line splitter: lines are accumulated from
the right; a `'\r'` immediately before a `'\n'` belongs to the
terminator. -/
def lineStep (c : Char) (acc : List (Str × Str)) : List (Str × Str) :=
  match acc with
  | [] => if c = '\n' then [([], ['\n'])] else [([c], [])]
  | (content, term) :: tl =>
    if c = '\n' then ([], ['\n']) :: acc
    else if c = '\r' && content = [] && term = ['\n'] then
      ([], ['\r', '\n']) :: tl
    else (c :: content, term) :: tl

/-- Split raw text into `(content, terminator)` lines. -/
def toLines (s : Str) : List (Str × Str) := s.foldr lineStep []

/-- Modelled from the spec: the tokenizer (`crate::lex::lex`, §4.1 of the
spec): classify each line and keep its terminator as a `NEWLINE`
token. -/
def lexSpec (s : Str) : List Token :=
  (toLines s).foldr (fun p acc => lexLine p.1 p.2 ++ acc) []

/-- `Deb822::from_str` (lines 110-212): lex, then assemble. -/
def from_str (s : String) : PResult Deb822 :=
  fromTokens (lexSpec s.toList)

/-- The eight token kinds the tokenizer can emit (§4.1); the syntax-tree
node kinds are excluded. -/
def lexKind (k : SyntaxKind) : Bool :=
  match k with
  | .KEY | .COLON | .VALUE | .WHITESPACE | .INDENT | .NEWLINE | .COMMENT
  | .ERROR => true
  | _ => false

/-- Every token's kind is one the tokenizer can emit. -/
def kindsOK (ts : List Token) : Bool :=
  ts.all (fun t => lexKind t.kind)

/-- The string ends with a `'\n'`. -/
def endsNl (v : Str) : Bool :=
  match v.getLast? with
  | some c => c = '\n'
  | none => false

/-- Every `NEWLINE` token's text ends with `'\n'`. -/
def nlOK (ts : List Token) : Bool :=
  ts.all (fun t => t.kind != SyntaxKind.NEWLINE || endsNl t.text)

/-- A newline-terminator text: nonempty, ends with `'\n'`, and contains
no other `'\n'` (covers `"\n"` and `"\r\n"`). -/
def goodNlText (v : Str) : Bool :=
  endsNl v && !(v.dropLast.contains '\n')

/-- Every `NEWLINE` token carries a terminator-shaped text. -/
def nlStrict (ts : List Token) : Bool :=
  ts.all (fun t => t.kind != SyntaxKind.NEWLINE || goodNlText t.text)

/-- Every `VALUE` token's text is free of `'\n'` (a value token never
spans lines). -/
def valuesNoNl (ts : List Token) : Bool :=
  ts.all (fun t => t.kind != SyntaxKind.VALUE || !(t.text.contains '\n'))

/-- Every token satisfying `p` is immediately followed by a token
satisfying `q` (so in particular it is not the last token). -/
def followOK (p q : Token → Bool) : List Token → Bool
  | [] => true
  | t :: rest =>
    (if p t then
      match rest with
      | t2 :: _ => q t2
      | [] => false
    else true) && followOK p q rest

/-- Every `VALUE` token is immediately followed by a `NEWLINE` token
(true of tokenized text whose lines are all newline-terminated). -/
def valueNL (ts : List Token) : Bool :=
  followOK (fun t => t.kind == SyntaxKind.VALUE)
    (fun t => t.kind == SyntaxKind.NEWLINE) ts

/-- Every `COMMENT` token is immediately followed by a `NEWLINE` token. -/
def commentNL (ts : List Token) : Bool :=
  followOK (fun t => t.kind == SyntaxKind.COMMENT)
    (fun t => t.kind == SyntaxKind.NEWLINE) ts

/-- Every `INDENT` token is immediately followed by a `VALUE` token with
nonempty text (no continuation line is blank). -/
def indentVal (ts : List Token) : Bool :=
  followOK (fun t => t.kind == SyntaxKind.INDENT)
    (fun t => t.kind == SyntaxKind.VALUE && !(t.text.isEmpty)) ts

/-- Invariant threaded through `mainLoop` for the no-panic proof: in the
continuation modes the value under construction ends in `'\n'`, except
right after appending a `VALUE` token, when the next token is a
`NEWLINE`. -/
def InvC1 : Mode → List Token → Prop
  | .contCheck _ v, _ => endsNl v = true
  | .contInner _ v, ts =>
    endsNl v = true ∨ ∃ t2 r2, ts = t2 :: r2 ∧ t2.kind = SyntaxKind.NEWLINE
  | _, _ => True

/-- A finished field value: it does not end with `'\n'`. -/
def goodVal (v : Str) : Prop := v.getLast? ≠ some '\n'

/-- The value still carries its trailing `'\n'`; after the trim it will
not end with `'\n'`. -/
def goodTail (v : Str) : Prop := v.dropLast.getLast? ≠ some '\n'

/-- Every field of the list has a value with no trailing newline. -/
def goodFields (fs : List Field) : Prop := ∀ f ∈ fs, goodVal f.value

/-- Invariant threaded through `mainLoop` for the no-trailing-newline
proof. -/
def InvC2 : Mode → List Token → Prop
  | .firstLine _ v, _ => '\n' ∉ v
  | .contCheck _ v, _ => endsNl v = true → goodTail v
  | .contInner _ v, ts =>
    (∀ t2 r2, ts = t2 :: r2 → t2.kind = SyntaxKind.VALUE → t2.text ≠ []) ∧
      (endsNl v = true →
        goodTail v ∧ ∃ t2 r2, ts = t2 :: r2 ∧ t2.kind = SyntaxKind.VALUE)
  | _, _ => True

/-- Token list of one continuation line `(indent, value, newline)` as the
tokenizer produces it. -/
def mkCont (p : Str × Str × Str) : List Token :=
  [⟨.INDENT, p.1⟩, ⟨.VALUE, p.2.1⟩, ⟨.NEWLINE, p.2.2⟩]

/-- Token list of a whole continuation block. -/
def contTokens (conts : List (Str × Str × Str)) : List Token :=
  conts.foldr (fun p acc => mkCont p ++ acc) []

/-- The text a continuation block contributes to the value: each line's
content followed by its newline token's literal text. -/
def contBody (conts : List (Str × Str × Str)) : Str :=
  conts.foldr (fun p acc => p.2.1 ++ p.2.2 ++ acc) []

/-! ## Helper lemmas -/

theorem endsNl_iff {v : Str} : endsNl v = true ↔ v.getLast? = some '\n' := by
  unfold endsNl
  cases h : v.getLast? with
  | none => simp
  | some c => simp [decide_eq_true_eq]

theorem popChar_endsNl {v : Str} (h : endsNl v = true) :
    popChar v = some (v.dropLast, '\n') := by
  have h2 := endsNl_iff.mp h
  simp [popChar, h2]

theorem endsNl_concat (v : Str) : endsNl (v ++ ['\n']) = true := by
  rw [endsNl_iff]
  exact List.getLast?_concat _

theorem endsNl_append {v w : Str} (h : endsNl w = true) :
    endsNl (v ++ w) = true := by
  rw [endsNl_iff] at h ⊢
  rw [List.getLast?_append_of_ne_nil]
  · exact h
  · intro hw
    rw [hw] at h
    simp at h

theorem followOK_tail {p q : Token → Bool} {t : Token} {rest : List Token}
    (h : followOK p q (t :: rest) = true) : followOK p q rest = true := by
  simp only [followOK, Bool.and_eq_true] at h
  exact h.2

theorem followOK_head {p q : Token → Bool} {t : Token} {rest : List Token}
    (h : followOK p q (t :: rest) = true) (hp : p t = true) :
    ∃ t2 r2, rest = t2 :: r2 ∧ q t2 = true := by
  simp only [followOK, Bool.and_eq_true] at h
  have h1 := h.1
  rw [if_pos hp] at h1
  cases rest with
  | nil => simp at h1
  | cons t2 r2 => exact ⟨t2, r2, rfl, h1⟩

theorem mainLoop_no_panic (ts : List Token) :
    ∀ pars cur m, kindsOK ts = true → nlOK ts = true → valueNL ts = true →
      InvC1 m ts → mainLoop ts pars cur m ≠ PResult.panicked := by
  induction ts with
  | nil =>
    intro pars cur m _ _ _ hinv
    cases m with
    | top =>
      simp only [mainLoop, atEof, finalize]
      split <;> simp_all
    | comment =>
      simp only [mainLoop, atEof, finalize]
      split <;> simp_all
    | expectColon k => simp [mainLoop, atEof]
    | skipWS k =>
      simp only [mainLoop, atEof, finishEof]
      rw [popChar_endsNl (by decide)]
      simp only [finalize]
      split <;> simp_all
    | firstLine k v =>
      simp only [mainLoop, atEof, finishEof]
      rw [popChar_endsNl (endsNl_concat v)]
      simp only [finalize]
      split <;> simp_all
    | contCheck k v =>
      simp only [InvC1] at hinv
      simp only [mainLoop, atEof, finishEof]
      rw [popChar_endsNl hinv]
      simp only [finalize]
      split <;> simp_all
    | contInner k v =>
      simp only [InvC1] at hinv
      rcases hinv with hinv | ⟨t2, r2, habs, _⟩
      · simp only [mainLoop, atEof, finishEof]
        rw [popChar_endsNl hinv]
        simp only [finalize]
        split <;> simp_all
      · exact absurd habs (by simp)
  | cons t rest ih =>
    intro pars cur m hk hn hv hinv
    have hk' := hk
    simp only [kindsOK, List.all_cons, Bool.and_eq_true] at hk'
    obtain ⟨hk1, hk2⟩ := hk'
    have hn' := hn
    simp only [nlOK, List.all_cons, Bool.and_eq_true] at hn'
    obtain ⟨hn1, hn2⟩ := hn'
    have hv2 : valueNL rest = true := followOK_tail hv
    cases m with
    | top =>
      cases htk : t.kind with
      | EMPTY_LINE => rw [htk] at hk1; simp [lexKind] at hk1
      | PARAGRAPH => rw [htk] at hk1; simp [lexKind] at hk1
      | ROOT => rw [htk] at hk1; simp [lexKind] at hk1
      | ENTRY => rw [htk] at hk1; simp [lexKind] at hk1
      | INDENT => simp [mainLoop, htk]
      | COLON => simp [mainLoop, htk]
      | ERROR => simp [mainLoop, htk]
      | VALUE => simp [mainLoop, htk]
      | WHITESPACE =>
        simp only [mainLoop, htk]
        exact ih pars cur .top hk2 hn2 hv2 trivial
      | KEY =>
        simp only [mainLoop, htk]
        exact ih pars cur _ hk2 hn2 hv2 trivial
      | COMMENT =>
        simp only [mainLoop, htk]
        exact ih pars cur .comment hk2 hn2 hv2 trivial
      | NEWLINE =>
        simp only [mainLoop, htk]
        split
        · exact ih pars cur .top hk2 hn2 hv2 trivial
        · exact ih _ _ .top hk2 hn2 hv2 trivial
    | expectColon k =>
      simp only [mainLoop]
      split
      · exact ih pars cur _ hk2 hn2 hv2 trivial
      · simp
    | skipWS k =>
      simp only [mainLoop]
      split
      · exact ih pars cur _ hk2 hn2 hv2 trivial
      · exact ih pars cur _ hk2 hn2 hv2 trivial
      · exact ih pars cur _ hk2 hn2 hv2 (by simp [InvC1]; decide)
      · simp
    | firstLine k v =>
      simp only [mainLoop]
      split
      · exact ih pars cur _ hk2 hn2 hv2 trivial
      · exact ih pars cur _ hk2 hn2 hv2 (by simp only [InvC1]; exact endsNl_concat v)
      · simp
    | contCheck k v =>
      simp only [InvC1] at hinv
      simp only [mainLoop]
      split
      · exact ih pars cur _ hk2 hn2 hv2 (Or.inl hinv)
      · simp only [popChar_endsNl hinv]
        simp only [if_true]
        split
        next heq => rw [heq] at hk1; simp [lexKind] at hk1
        next heq => rw [heq] at hk1; simp [lexKind] at hk1
        next heq => rw [heq] at hk1; simp [lexKind] at hk1
        next heq => rw [heq] at hk1; simp [lexKind] at hk1
        next => simp
        next => simp
        next => simp
        next => exact ih _ _ .top hk2 hn2 hv2 trivial
        next => exact ih _ _ _ hk2 hn2 hv2 trivial
        next => simp
        next => exact ih _ _ .comment hk2 hn2 hv2 trivial
        next =>
          split
          · exact ih _ _ .top hk2 hn2 hv2 trivial
          · exact ih _ _ .top hk2 hn2 hv2 trivial
    | contInner k v =>
      simp only [InvC1] at hinv
      simp only [mainLoop]
      split
      next heq =>
        obtain ⟨t2, r2, hr, hq⟩ := followOK_head hv (by simp [heq])
        exact ih _ _ _ hk2 hn2 hv2 (Or.inr ⟨t2, r2, hr, by simpa using hq⟩)
      next heq =>
        rcases hinv with h | ⟨t2, r2, he, hknd⟩
        · exact ih _ _ _ hk2 hn2 hv2 (Or.inl h)
        · injection he with h1 h2
          rw [← h1] at hknd
          rw [heq] at hknd
          simp at hknd
      next heq =>
        have hnl : endsNl t.text = true := by
          simp only [heq] at hn1
          simpa using hn1
        exact ih _ _ _ hk2 hn2 hv2 (by simp only [InvC1]; exact endsNl_append hnl)
      next heq =>
        rcases hinv with h | ⟨t2, r2, he, hknd⟩
        · simp only [popChar_endsNl h]
          simp only [if_true]
          exact ih _ _ _ hk2 hn2 hv2 trivial
        · injection he with h1 h2
          rw [← h1] at hknd
          rw [heq] at hknd
          simp at hknd
      all_goals simp
    | comment =>
      simp only [mainLoop]
      split
      · exact ih pars cur .top hk2 hn2 hv2 trivial
      · exact ih pars cur .comment hk2 hn2 hv2 trivial


theorem popChar_inv {v v2 : Str} {c : Char} (h : popChar v = some (v2, c)) :
    v.getLast? = some c ∧ v2 = v.dropLast := by
  unfold popChar at h
  cases hg : v.getLast? with
  | none => rw [hg] at h; simp at h
  | some c2 =>
    rw [hg] at h
    simp only [Option.some.injEq, Prod.mk.injEq] at h
    exact ⟨by rw [h.2], h.1.symm⟩

theorem getLast_notMem {v : Str} (h : '\n' ∉ v) : v.getLast? ≠ some '\n' :=
  fun hc => h (List.mem_of_mem_getLast? hc)

theorem not_endsNl_getLast {v : Str} (h : endsNl v = false) :
    v.getLast? ≠ some '\n' := by
  unfold endsNl at h
  cases hg : v.getLast? with
  | none => simp
  | some c =>
    rw [hg] at h
    simp only [decide_eq_false_iff_not] at h
    simpa using h

theorem goodTail_append_nl {v n : Str} (hv : v.getLast? ≠ some '\n')
    (hn : goodNlText n = true) : goodTail (v ++ n) := by
  simp only [goodNlText, Bool.and_eq_true] at hn
  obtain ⟨hend, hnd⟩ := hn
  have hne : n ≠ [] := by
    intro h0
    rw [h0] at hend
    simp [endsNl] at hend
  unfold goodTail
  rw [List.dropLast_append_of_ne_nil v hne]
  cases hnd0 : n.dropLast with
  | nil => simpa using hv
  | cons a l =>
    rw [List.getLast?_append_of_ne_nil v (by simp)]
    intro hc
    have hmem : '\n' ∈ a :: l := List.mem_of_mem_getLast? hc
    rw [hnd0] at hnd
    simp only [Bool.not_eq_true'] at hnd
    simp at hnd
    rcases List.mem_cons.mp hmem with h | h
    · exact hnd.1 h
    · exact hnd.2 h

theorem goodFields_push {cur : List Field} {k v : Str} (hc : goodFields cur)
    (hv : goodVal v) : goodFields (cur ++ [⟨k, v⟩]) := by
  intro f hf
  rcases List.mem_append.mp hf with h | h
  · exact hc f h
  · simp at h
    subst h
    exact hv

theorem goodPars_push {pars : List Paragraph} {cur : List Field}
    (hp : ∀ p ∈ pars, goodFields p.fields) (hc : goodFields cur) :
    ∀ p ∈ pars ++ [Paragraph.mk cur], goodFields p.fields := by
  intro p hmem
  rcases List.mem_append.mp hmem with h | h
  · exact hp p h
  · simp at h
    subst h
    exact hc

theorem finalize_good {pars : List Paragraph} {cur : List Field} {d : Deb822}
    (hp : ∀ p ∈ pars, goodFields p.fields) (hc : goodFields cur)
    (hok : finalize pars cur = PResult.ok d) :
    ∀ p ∈ d.paragraphs, goodFields p.fields := by
  unfold finalize at hok
  split at hok
  · injection hok with h
    subst h
    exact hp
  · injection hok with h
    subst h
    exact goodPars_push hp hc

theorem finishEof_good {pars : List Paragraph} {cur : List Field} {k v : Str}
    {d : Deb822} (hp : ∀ p ∈ pars, goodFields p.fields) (hc : goodFields cur)
    (hv : endsNl v = true → goodTail v)
    (hok : finishEof pars cur k v = PResult.ok d) :
    ∀ p ∈ d.paragraphs, goodFields p.fields := by
  unfold finishEof at hok
  split at hok
  next v2 c heqp =>
    split at hok
    next hc2 =>
      obtain ⟨hg, hd⟩ := popChar_inv heqp
      have hend : endsNl v = true := endsNl_iff.mpr (by rw [hg, hc2])
      refine finalize_good hp (goodFields_push hc ?_) hok
      rw [hd]
      exact hv hend
    next => simp at hok
  next => simp at hok


theorem endsNl_append_right {v w : Str} (hw : w ≠ []) (h : endsNl (v ++ w) = true) :
    '\n' ∈ w := by
  rw [endsNl_iff, List.getLast?_append_of_ne_nil v hw] at h
  exact List.mem_of_mem_getLast? h

theorem mainLoop_good_values (ts : List Token) :
    ∀ pars cur m d, nlStrict ts = true → valuesNoNl ts = true →
      valueNL ts = true → commentNL ts = true → indentVal ts = true →
      InvC2 m ts → (∀ p ∈ pars, goodFields p.fields) → goodFields cur →
      mainLoop ts pars cur m = PResult.ok d →
      ∀ p ∈ d.paragraphs, goodFields p.fields := by
  induction ts with
  | nil =>
    intro pars cur m d _ _ _ _ _ hinv hp hc hok
    cases m with
    | top =>
      simp only [mainLoop, atEof] at hok
      exact finalize_good hp hc hok
    | comment =>
      simp only [mainLoop, atEof] at hok
      exact finalize_good hp hc hok
    | expectColon k => simp [mainLoop, atEof] at hok
    | skipWS k =>
      simp only [mainLoop, atEof] at hok
      exact finishEof_good hp hc (fun _ => by unfold goodTail; decide) hok
    | firstLine k v =>
      simp only [mainLoop, atEof] at hok
      simp only [InvC2] at hinv
      refine finishEof_good hp hc (fun _ => ?_) hok
      unfold goodTail
      rw [List.dropLast_concat]
      exact getLast_notMem hinv
    | contCheck k v =>
      simp only [mainLoop, atEof] at hok
      simp only [InvC2] at hinv
      exact finishEof_good hp hc hinv hok
    | contInner k v =>
      simp only [mainLoop, atEof] at hok
      simp only [InvC2] at hinv
      refine finishEof_good hp hc (fun hend => ?_) hok
      obtain ⟨_, t2, r2, habs, _⟩ := hinv.2 hend
      exact absurd habs (by simp)
  | cons t rest ih =>
    intro pars cur m d hs hvn hvl hcm hin hinv hp hc hok
    have hs' := hs
    simp only [nlStrict, List.all_cons, Bool.and_eq_true] at hs'
    obtain ⟨hs1, hs2⟩ := hs'
    have hvn' := hvn
    simp only [valuesNoNl, List.all_cons, Bool.and_eq_true] at hvn'
    obtain ⟨hvn1, hvn2⟩ := hvn'
    have hvl2 : valueNL rest = true := followOK_tail hvl
    have hcm2 : commentNL rest = true := followOK_tail hcm
    have hin2 : indentVal rest = true := followOK_tail hin
    cases m with
    | top =>
      cases htk : t.kind with
      | EMPTY_LINE => simp [mainLoop, htk] at hok
      | PARAGRAPH => simp [mainLoop, htk] at hok
      | ROOT => simp [mainLoop, htk] at hok
      | ENTRY => simp [mainLoop, htk] at hok
      | INDENT => simp [mainLoop, htk] at hok
      | COLON => simp [mainLoop, htk] at hok
      | ERROR => simp [mainLoop, htk] at hok
      | VALUE => simp [mainLoop, htk] at hok
      | WHITESPACE =>
        simp only [mainLoop, htk] at hok
        exact ih _ _ .top _ hs2 hvn2 hvl2 hcm2 hin2 trivial hp hc hok
      | KEY =>
        simp only [mainLoop, htk] at hok
        exact ih _ _ (.expectColon t.text) _ hs2 hvn2 hvl2 hcm2 hin2 trivial hp hc hok
      | COMMENT =>
        simp only [mainLoop, htk] at hok
        exact ih _ _ .comment _ hs2 hvn2 hvl2 hcm2 hin2 trivial hp hc hok
      | NEWLINE =>
        simp only [mainLoop, htk] at hok
        split at hok
        · exact ih _ _ .top _ hs2 hvn2 hvl2 hcm2 hin2 trivial hp hc hok
        · exact ih _ _ .top _ hs2 hvn2 hvl2 hcm2 hin2 trivial
            (goodPars_push hp hc) (by intro f hf; simp at hf) hok
    | expectColon k =>
      simp only [mainLoop] at hok
      split at hok
      · exact ih _ _ (.skipWS k) _ hs2 hvn2 hvl2 hcm2 hin2 trivial hp hc hok
      · simp at hok
    | skipWS k =>
      simp only [mainLoop] at hok
      split at hok
      next =>
        exact ih _ _ (.skipWS k) _ hs2 hvn2 hvl2 hcm2 hin2 trivial hp hc hok
      next heq =>
        have hnn : '\n' ∉ t.text := by rw [heq] at hvn1; simpa using hvn1
        exact ih _ _ (.firstLine k t.text) _ hs2 hvn2 hvl2 hcm2 hin2 hnn hp hc hok
      next heq =>
        exact ih _ _ (.contCheck k ['\n']) _ hs2 hvn2 hvl2 hcm2 hin2
          (fun _ => by unfold goodTail; decide) hp hc hok
      all_goals simp at hok
    | firstLine k v =>
      simp only [InvC2] at hinv
      simp only [mainLoop] at hok
      split at hok
      next heq =>
        have hnn : '\n' ∉ t.text := by rw [heq] at hvn1; simpa using hvn1
        exact ih _ _ (.firstLine k t.text) _ hs2 hvn2 hvl2 hcm2 hin2 hnn hp hc hok
      next heq =>
        refine ih _ _ (.contCheck k (v ++ ['\n'])) _ hs2 hvn2 hvl2 hcm2 hin2
          (fun _ => ?_) hp hc hok
        unfold goodTail
        rw [List.dropLast_concat]
        exact getLast_notMem hinv
      all_goals simp at hok
    | contCheck k v =>
      simp only [InvC2] at hinv
      simp only [mainLoop] at hok
      split at hok
      next hind =>
        obtain ⟨t2, r2, hr, hq⟩ := followOK_head hin (by simp [hind])
        simp only [Bool.and_eq_true, beq_iff_eq] at hq
        refine ih _ _ (.contInner k v) _ hs2 hvn2 hvl2 hcm2 hin2 ⟨?_, ?_⟩ hp hc hok
        · intro t2' r2' hre hkv
          rw [hr] at hre
          injection hre with e1 e2
          subst e1
          intro h0
          have hq2 := hq.2
          rw [h0] at hq2
          simp at hq2
        · intro hend
          exact ⟨hinv hend, t2, r2, hr, hq.1⟩
      next hnind =>
        split at hok
        next v2 c heqp =>
          split at hok
          next hc2 =>
            obtain ⟨hg, hd⟩ := popChar_inv heqp
            have hend : endsNl v = true := endsNl_iff.mpr (by rw [hg, hc2])
            have hgood : goodVal v2 := by rw [hd]; exact hinv hend
            split at hok
            next => simp at hok
            next => simp at hok
            next => simp at hok
            next => simp at hok
            next => simp at hok
            next => simp at hok
            next => simp at hok
            next =>
              exact ih _ _ .top _ hs2 hvn2 hvl2 hcm2 hin2 trivial hp
                (goodFields_push hc hgood) hok
            next =>
              exact ih _ _ (.expectColon t.text) _ hs2 hvn2 hvl2 hcm2 hin2 trivial hp
                (goodFields_push hc hgood) hok
            next => simp at hok
            next =>
              exact ih _ _ .comment _ hs2 hvn2 hvl2 hcm2 hin2 trivial hp
                (goodFields_push hc hgood) hok
            next =>
              split at hok
              · exact ih _ _ .top _ hs2 hvn2 hvl2 hcm2 hin2 trivial hp
                  (goodFields_push hc hgood) hok
              · exact ih _ _ .top _ hs2 hvn2 hvl2 hcm2 hin2 trivial
                  (goodPars_push hp (goodFields_push hc hgood))
                  (by intro f hf; simp at hf) hok
          next => simp at hok
        next => simp at hok
    | contInner k v =>
      simp only [InvC2] at hinv
      obtain ⟨hinv1, hinv2⟩ := hinv
      simp only [mainLoop] at hok
      split at hok
      next heq =>
        have htne : t.text ≠ [] := hinv1 t rest rfl heq
        have hnn : '\n' ∉ t.text := by rw [heq] at hvn1; simpa using hvn1
        refine ih _ _ (.contInner k (v ++ t.text)) _ hs2 hvn2 hvl2 hcm2 hin2
          ⟨?_, ?_⟩ hp hc hok
        · obtain ⟨t2, r2, hr, hq⟩ := followOK_head hvl (by simp [heq])
          intro t2' r2' hre hkv
          rw [hr] at hre
          injection hre with e1 e2
          subst e1
          simp [hkv] at hq
        · intro hend
          exact absurd (endsNl_append_right htne hend) hnn
      next heq =>
        refine ih _ _ (.contInner k v) _ hs2 hvn2 hvl2 hcm2 hin2
          ⟨?_, ?_⟩ hp hc hok
        · obtain ⟨t2, r2, hr, hq⟩ := followOK_head hcm (by simp [heq])
          intro t2' r2' hre hkv
          rw [hr] at hre
          injection hre with e1 e2
          subst e1
          simp [hkv] at hq
        · intro hend
          obtain ⟨_, t2, r2, hee, hkk⟩ := hinv2 hend
          injection hee with e1 e2
          rw [← e1] at hkk
          rw [heq] at hkk
          simp at hkk
      next heq =>
        have hgn : goodNlText t.text = true := by rw [heq] at hs1; simpa using hs1
        have hvlast : v.getLast? ≠ some '\n' := by
          cases he : endsNl v with
          | true =>
            obtain ⟨_, t2, r2, hee, hkk⟩ := hinv2 he
            injection hee with e1 e2
            rw [← e1] at hkk
            rw [heq] at hkk
            simp at hkk
          | false => exact not_endsNl_getLast he
        refine ih _ _ (.contCheck k (v ++ t.text)) _ hs2 hvn2 hvl2 hcm2 hin2
          (fun _ => ?_) hp hc hok
        exact goodTail_append_nl hvlast hgn
      next heq =>
        split at hok
        next v2 c heqp =>
          split at hok
          next hc2 =>
            obtain ⟨hg, hd⟩ := popChar_inv heqp
            have hend : endsNl v = true := endsNl_iff.mpr (by rw [hg, hc2])
            obtain ⟨_, t2, r2, hee, hkk⟩ := hinv2 hend
            injection hee with e1 e2
            rw [← e1] at hkk
            rw [heq] at hkk
            simp at hkk
          next => simp at hok
        next => simp at hok
      all_goals simp at hok
    | comment =>
      simp only [mainLoop] at hok
      split at hok
      · exact ih _ _ .top _ hs2 hvn2 hvl2 hcm2 hin2 trivial hp hc hok
      · exact ih _ _ .comment _ hs2 hvn2 hvl2 hcm2 hin2 trivial hp hc hok


theorem finalize_nonempty {pars : List Paragraph} {cur : List Field} {d : Deb822}
    (hp : ∀ p ∈ pars, p.fields ≠ [])
    (hok : finalize pars cur = PResult.ok d) :
    ∀ p ∈ d.paragraphs, p.fields ≠ [] := by
  unfold finalize at hok
  split at hok
  · injection hok with h
    subst h
    exact hp
  · next hne =>
    injection hok with h
    subst h
    intro p hmem
    rcases List.mem_append.mp hmem with h | h
    · exact hp p h
    · simp at h
      subst h
      exact hne

theorem finishEof_nonempty {pars : List Paragraph} {cur : List Field} {k v : Str}
    {d : Deb822} (hp : ∀ p ∈ pars, p.fields ≠ [])
    (hok : finishEof pars cur k v = PResult.ok d) :
    ∀ p ∈ d.paragraphs, p.fields ≠ [] := by
  unfold finishEof at hok
  split at hok
  next v2 c heqp =>
    split at hok
    · exact finalize_nonempty hp hok
    · simp at hok
  next => simp at hok

theorem nonempty_push {pars : List Paragraph} {cur : List Field}
    (hp : ∀ p ∈ pars, p.fields ≠ []) (hc : cur ≠ []) :
    ∀ p ∈ pars ++ [Paragraph.mk cur], p.fields ≠ [] := by
  intro p hmem
  rcases List.mem_append.mp hmem with h | h
  · exact hp p h
  · simp at h
    subst h
    exact hc

theorem mainLoop_nonempty_paragraphs (ts : List Token) :
    ∀ pars cur m d, (∀ p ∈ pars, p.fields ≠ []) →
      mainLoop ts pars cur m = PResult.ok d →
      ∀ p ∈ d.paragraphs, p.fields ≠ [] := by
  induction ts with
  | nil =>
    intro pars cur m d hp hok
    cases m with
    | top =>
      simp only [mainLoop, atEof] at hok
      exact finalize_nonempty hp hok
    | comment =>
      simp only [mainLoop, atEof] at hok
      exact finalize_nonempty hp hok
    | expectColon k => simp [mainLoop, atEof] at hok
    | skipWS k =>
      simp only [mainLoop, atEof] at hok
      exact finishEof_nonempty hp hok
    | firstLine k v =>
      simp only [mainLoop, atEof] at hok
      exact finishEof_nonempty hp hok
    | contCheck k v =>
      simp only [mainLoop, atEof] at hok
      exact finishEof_nonempty hp hok
    | contInner k v =>
      simp only [mainLoop, atEof] at hok
      exact finishEof_nonempty hp hok
  | cons t rest ih =>
    intro pars cur m d hp hok
    cases m with
    | top =>
      cases htk : t.kind with
      | EMPTY_LINE => simp [mainLoop, htk] at hok
      | PARAGRAPH => simp [mainLoop, htk] at hok
      | ROOT => simp [mainLoop, htk] at hok
      | ENTRY => simp [mainLoop, htk] at hok
      | INDENT => simp [mainLoop, htk] at hok
      | COLON => simp [mainLoop, htk] at hok
      | ERROR => simp [mainLoop, htk] at hok
      | VALUE => simp [mainLoop, htk] at hok
      | WHITESPACE =>
        simp only [mainLoop, htk] at hok
        exact ih _ _ .top _ hp hok
      | KEY =>
        simp only [mainLoop, htk] at hok
        exact ih _ _ (.expectColon t.text) _ hp hok
      | COMMENT =>
        simp only [mainLoop, htk] at hok
        exact ih _ _ .comment _ hp hok
      | NEWLINE =>
        simp only [mainLoop, htk] at hok
        split at hok
        · exact ih _ _ .top _ hp hok
        · next hne => exact ih _ _ .top _ (nonempty_push hp hne) hok
    | expectColon k =>
      simp only [mainLoop] at hok
      split at hok
      · exact ih _ _ (.skipWS k) _ hp hok
      · simp at hok
    | skipWS k =>
      simp only [mainLoop] at hok
      split at hok
      next => exact ih _ _ (.skipWS k) _ hp hok
      next => exact ih _ _ (.firstLine k t.text) _ hp hok
      next => exact ih _ _ (.contCheck k ['\n']) _ hp hok
      all_goals simp at hok
    | firstLine k v =>
      simp only [mainLoop] at hok
      split at hok
      next => exact ih _ _ (.firstLine k t.text) _ hp hok
      next => exact ih _ _ (.contCheck k (v ++ ['\n'])) _ hp hok
      all_goals simp at hok
    | contCheck k v =>
      simp only [mainLoop] at hok
      split at hok
      next => exact ih _ _ (.contInner k v) _ hp hok
      next =>
        split at hok
        next v2 c heqp =>
          split at hok
          next hc2 =>
            split at hok
            next => simp at hok
            next => simp at hok
            next => simp at hok
            next => simp at hok
            next => simp at hok
            next => simp at hok
            next => simp at hok
            next => exact ih _ _ .top _ hp hok
            next => exact ih _ _ (.expectColon t.text) _ hp hok
            next => simp at hok
            next => exact ih _ _ .comment _ hp hok
            next =>
              split at hok
              · exact ih _ _ .top _ hp hok
              · next hne => exact ih _ _ .top _ (nonempty_push hp hne) hok
          next => simp at hok
        next => simp at hok
    | contInner k v =>
      simp only [mainLoop] at hok
      split at hok
      next => exact ih _ _ (.contInner k (v ++ t.text)) _ hp hok
      next => exact ih _ _ (.contInner k v) _ hp hok
      next => exact ih _ _ (.contCheck k (v ++ t.text)) _ hp hok
      next =>
        split at hok
        next v2 c heqp =>
          split at hok
          next hc2 => exact ih _ _ (.expectColon t.text) _ hp hok
          next => simp at hok
        next => simp at hok
      all_goals simp at hok
    | comment =>
      simp only [mainLoop] at hok
      split at hok
      · exact ih _ _ .top _ hp hok
      · exact ih _ _ .comment _ hp hok

theorem finishEof_no_err {pars : List Paragraph} {cur : List Field} {k v : Str}
    {e : Error} : finishEof pars cur k v ≠ PResult.err e := by
  unfold finishEof
  split
  next =>
    split
    · unfold finalize
      split <;> simp
    · simp
  next => simp

theorem last_lift {t : Token} {rest : List Token}
    (h : rest.getLast?.map Token.kind = some SyntaxKind.KEY) :
    (t :: rest).getLast?.map Token.kind = some SyntaxKind.KEY := by
  cases rest with
  | nil => simp at h
  | cons a l => rw [List.getLast?_cons_cons]; exact h

theorem mainLoop_eof_last_key (ts : List Token) :
    ∀ pars cur m, mainLoop ts pars cur m = PResult.err Error.UnexpectedEof →
      (ts.getLast?.map Token.kind = some SyntaxKind.KEY) ∨
        (ts = [] ∧ ∃ k, m = Mode.expectColon k) := by
  induction ts with
  | nil =>
    intro pars cur m hok
    cases m with
    | expectColon k => exact Or.inr ⟨rfl, k, rfl⟩
    | top =>
      simp only [mainLoop, atEof, finalize] at hok
      split at hok <;> simp at hok
    | comment =>
      simp only [mainLoop, atEof, finalize] at hok
      split at hok <;> simp at hok
    | skipWS k =>
      simp only [mainLoop, atEof] at hok
      exact absurd hok finishEof_no_err
    | firstLine k v =>
      simp only [mainLoop, atEof] at hok
      exact absurd hok finishEof_no_err
    | contCheck k v =>
      simp only [mainLoop, atEof] at hok
      exact absurd hok finishEof_no_err
    | contInner k v =>
      simp only [mainLoop, atEof] at hok
      exact absurd hok finishEof_no_err
  | cons t rest ih =>
    intro pars cur m hok
    cases m with
    | top =>
      cases htk : t.kind with
      | EMPTY_LINE => simp [mainLoop, htk] at hok
      | PARAGRAPH => simp [mainLoop, htk] at hok
      | ROOT => simp [mainLoop, htk] at hok
      | ENTRY => simp [mainLoop, htk] at hok
      | INDENT => simp [mainLoop, htk] at hok
      | COLON => simp [mainLoop, htk] at hok
      | ERROR => simp [mainLoop, htk] at hok
      | VALUE => simp [mainLoop, htk] at hok
      | WHITESPACE =>
        simp only [mainLoop, htk] at hok
        rcases ih _ _ _ hok with h | ⟨_, k', hm⟩
        · exact Or.inl (last_lift h)
        · simp at hm
      | KEY =>
        simp only [mainLoop, htk] at hok
        rcases ih _ _ _ hok with h | ⟨hrnil, k', hm⟩
        · exact Or.inl (last_lift h)
        · subst hrnil
          exact Or.inl (by simp [htk])
      | COMMENT =>
        simp only [mainLoop, htk] at hok
        rcases ih _ _ _ hok with h | ⟨_, k', hm⟩
        · exact Or.inl (last_lift h)
        · simp at hm
      | NEWLINE =>
        simp only [mainLoop, htk] at hok
        split at hok <;>
          · rcases ih _ _ _ hok with h | ⟨_, k', hm⟩
            · exact Or.inl (last_lift h)
            · simp at hm
    | expectColon k =>
      simp only [mainLoop] at hok
      split at hok
      · rcases ih _ _ _ hok with h | ⟨_, k', hm⟩
        · exact Or.inl (last_lift h)
        · simp at hm
      · simp at hok
    | skipWS k =>
      simp only [mainLoop] at hok
      split at hok
      case _ =>
        rcases ih _ _ _ hok with h | ⟨_, k', hm⟩
        · exact Or.inl (last_lift h)
        · simp at hm
      case _ =>
        rcases ih _ _ _ hok with h | ⟨_, k', hm⟩
        · exact Or.inl (last_lift h)
        · simp at hm
      case _ =>
        rcases ih _ _ _ hok with h | ⟨_, k', hm⟩
        · exact Or.inl (last_lift h)
        · simp at hm
      all_goals simp at hok
    | firstLine k v =>
      simp only [mainLoop] at hok
      split at hok
      case _ =>
        rcases ih _ _ _ hok with h | ⟨_, k', hm⟩
        · exact Or.inl (last_lift h)
        · simp at hm
      case _ =>
        rcases ih _ _ _ hok with h | ⟨_, k', hm⟩
        · exact Or.inl (last_lift h)
        · simp at hm
      all_goals simp at hok
    | contCheck k v =>
      simp only [mainLoop] at hok
      split at hok
      next =>
        rcases ih _ _ _ hok with h | ⟨_, k', hm⟩
        · exact Or.inl (last_lift h)
        · simp at hm
      next =>
        split at hok
        next v2 c heqp =>
          split at hok
          next hc2 =>
            split at hok
            next => simp at hok
            next => simp at hok
            next => simp at hok
            next => simp at hok
            next => simp at hok
            next => simp at hok
            next => simp at hok
            next =>
              rcases ih _ _ _ hok with h | ⟨_, k', hm⟩
              · exact Or.inl (last_lift h)
              · simp at hm
            next heqk =>
              rcases ih _ _ _ hok with h | ⟨hrnil, k', hm⟩
              · exact Or.inl (last_lift h)
              · subst hrnil
                exact Or.inl (by simp [heqk])
            next => simp at hok
            next =>
              rcases ih _ _ _ hok with h | ⟨_, k', hm⟩
              · exact Or.inl (last_lift h)
              · simp at hm
            next =>
              split at hok <;>
                · rcases ih _ _ _ hok with h | ⟨_, k', hm⟩
                  · exact Or.inl (last_lift h)
                  · simp at hm
          next => simp at hok
        next => simp at hok
    | contInner k v =>
      simp only [mainLoop] at hok
      split at hok
      next =>
        rcases ih _ _ _ hok with h | ⟨_, k', hm⟩
        · exact Or.inl (last_lift h)
        · simp at hm
      next =>
        rcases ih _ _ _ hok with h | ⟨_, k', hm⟩
        · exact Or.inl (last_lift h)
        · simp at hm
      next =>
        rcases ih _ _ _ hok with h | ⟨_, k', hm⟩
        · exact Or.inl (last_lift h)
        · simp at hm
      next heqk =>
        split at hok
        next v2 c heqp =>
          split at hok
          next hc2 =>
            rcases ih _ _ _ hok with h | ⟨hrnil, k', hm⟩
            · exact Or.inl (last_lift h)
            · subst hrnil
              exact Or.inl (by simp [heqk])
          next => simp at hok
        next => simp at hok
      all_goals simp at hok
    | comment =>
      simp only [mainLoop] at hok
      split at hok <;>
        · rcases ih _ _ _ hok with h | ⟨_, k', hm⟩
          · exact Or.inl (last_lift h)
          · simp at hm


theorem err_top (t : Token) (rest : List Token) (pars : List Paragraph)
    (cur : List Field)
    (h : t.kind = SyntaxKind.INDENT ∨ t.kind = SyntaxKind.COLON ∨
      t.kind = SyntaxKind.ERROR ∨ t.kind = SyntaxKind.VALUE) :
    mainLoop (t :: rest) pars cur .top =
      PResult.err (.UnexpectedToken t.kind t.text) := by
  rcases h with h | h | h | h <;> simp [mainLoop, h]

theorem err_expectColon (t : Token) (rest : List Token) (pars : List Paragraph)
    (cur : List Field) (k : Str) (h : t.kind ≠ SyntaxKind.COLON) :
    mainLoop (t :: rest) pars cur (.expectColon k) =
      PResult.err (.UnexpectedToken t.kind t.text) := by
  simp [mainLoop, h]

theorem err_skipWS (t : Token) (rest : List Token) (pars : List Paragraph)
    (cur : List Field) (k : Str) (h1 : t.kind ≠ SyntaxKind.WHITESPACE)
    (h2 : t.kind ≠ SyntaxKind.VALUE) (h3 : t.kind ≠ SyntaxKind.NEWLINE) :
    mainLoop (t :: rest) pars cur (.skipWS k) =
      PResult.err (.UnexpectedToken t.kind t.text) := by
  cases htk : t.kind <;> simp [mainLoop, htk] <;>
    first
      | rfl
      | exact absurd htk (by simp_all)

theorem err_firstLine (t : Token) (rest : List Token) (pars : List Paragraph)
    (cur : List Field) (k v : Str) (h1 : t.kind ≠ SyntaxKind.VALUE)
    (h2 : t.kind ≠ SyntaxKind.NEWLINE) :
    mainLoop (t :: rest) pars cur (.firstLine k v) =
      PResult.err (.UnexpectedToken t.kind t.text) := by
  cases htk : t.kind <;> simp [mainLoop, htk] <;>
    first
      | rfl
      | exact absurd htk (by simp_all)

theorem err_contInner (t : Token) (rest : List Token) (pars : List Paragraph)
    (cur : List Field) (k v : Str) (h1 : t.kind ≠ SyntaxKind.VALUE)
    (h2 : t.kind ≠ SyntaxKind.COMMENT) (h3 : t.kind ≠ SyntaxKind.NEWLINE)
    (h4 : t.kind ≠ SyntaxKind.KEY) :
    mainLoop (t :: rest) pars cur (.contInner k v) =
      PResult.err (.UnexpectedToken t.kind k) := by
  cases htk : t.kind <;> simp [mainLoop, htk] <;>
    first
      | rfl
      | exact absurd htk (by simp_all)

theorem skipWS_run (ws : List Str) :
    ∀ (rest : List Token) (pars : List Paragraph) (cur : List Field) (k : Str),
      mainLoop (ws.map (fun w => Token.mk .WHITESPACE w) ++ rest) pars cur
          (.skipWS k) =
        mainLoop rest pars cur (.skipWS k) := by
  induction ws with
  | nil => intro rest pars cur k; simp
  | cons w ws ihw =>
    intro rest pars cur k
    simp only [List.map_cons, List.cons_append, mainLoop]
    exact ihw rest pars cur k

theorem firstLine_run (vs : List Str) :
    ∀ (rest : List Token) (pars : List Paragraph) (cur : List Field) (k v : Str),
      mainLoop (vs.map (fun w => Token.mk .VALUE w) ++ rest) pars cur
          (.firstLine k v) =
        mainLoop rest pars cur (.firstLine k (vs.getLastD v)) := by
  induction vs with
  | nil => intro rest pars cur k v; simp
  | cons w vs ihv =>
    intro rest pars cur k v
    simp only [List.map_cons, List.cons_append, mainLoop, List.append_eq]
    rw [ihv]
    cases vs with
    | nil => simp
    | cons a l => simp only [List.getLastD_cons]

theorem contLoop_run (conts : List (Str × Str × Str)) :
    ∀ (pars : List Paragraph) (cur : List Field) (k v : Str),
      mainLoop (contTokens conts) pars cur (.contCheck k v) =
        finishEof pars cur k (v ++ contBody conts) := by
  induction conts with
  | nil =>
    intro pars cur k v
    simp [contTokens, contBody, mainLoop, atEof]
  | cons p conts ihc =>
    intro pars cur k v
    show mainLoop (mkCont p ++ contTokens conts) pars cur (.contCheck k v) = _
    simp only [mkCont, List.cons_append, List.nil_append]
    simp only [mainLoop, List.append_eq]
    simp only [if_true, show (SyntaxKind.INDENT = SyntaxKind.INDENT) = True
      from by simp]
    rw [ihc]
    simp [contBody, List.append_assoc]


theorem toLines_cons_line (l : Str) (s : Str) (hnl : '\n' ∉ l)
    (hcr : l.getLast? ≠ some '\r') :
    toLines (l ++ '\n' :: s) = (l, ['\n']) :: toLines s := by
  induction l with
  | nil =>
    show lineStep '\n' (toLines s) = ([], ['\n']) :: toLines s
    cases hts : toLines s with
    | nil => simp [lineStep]
    | cons a tl => simp [lineStep]
  | cons c l ihl =>
    have hnl' : '\n' ∉ l := fun h => hnl (List.mem_cons_of_mem _ h)
    have hc1 : c ≠ '\n' := fun h => hnl (by rw [h]; exact List.mem_cons_self _ _)
    have hcr' : l.getLast? ≠ some '\r' := by
      cases l with
      | nil => simp
      | cons a tl =>
        rw [← List.getLast?_cons_cons (a := c)]
        exact hcr
    show lineStep c (toLines (l ++ '\n' :: s)) = _
    rw [ihl hnl' hcr']
    by_cases hl : l = []
    · subst hl
      have hc2 : c ≠ '\r' := by simpa using hcr
      simp [lineStep, hc1, hc2]
    · simp [lineStep, hc1, hl]

theorem lexSpec_comment_line (c : Str) (s : Str) (hnl : '\n' ∉ c)
    (hcr : ('#' :: c).getLast? ≠ some '\r') :
    lexSpec (('#' :: c) ++ '\n' :: s) =
      ⟨.COMMENT, '#' :: c⟩ :: ⟨.NEWLINE, ['\n']⟩ :: lexSpec s := by
  unfold lexSpec
  rw [toLines_cons_line ('#' :: c) s (by
    intro h
    rcases List.mem_cons.mp h with h | h
    · simp at h
    · exact hnl h) hcr]
  simp [lexLine, lexContent]

theorem mainLoop_comment_skip (ct nt : Str) (rest : List Token)
    (pars : List Paragraph) (cur : List Field) :
    mainLoop (⟨.COMMENT, ct⟩ :: ⟨.NEWLINE, nt⟩ :: rest) pars cur .top =
      mainLoop rest pars cur .top := by
  simp [mainLoop]

theorem getFields_none (fs : List Field) (n : Str) :
    getFields fs n = none ↔ ∀ f ∈ fs, f.name ≠ n := by
  induction fs with
  | nil => simp [getFields]
  | cons f fs ihf =>
    unfold getFields
    by_cases h : f.name = n
    · simp [h]
    · simp only [if_neg h, ihf]
      constructor
      · intro ha g hg
        rcases List.mem_cons.mp hg with hg | hg
        · rw [hg]; exact h
        · exact ha g hg
      · intro ha g hg
        exact ha g (List.mem_cons_of_mem _ hg)

theorem getFields_some (fs : List Field) (n v : Str) :
    getFields fs n = some v ↔
      ∃ l1 f l2, fs = l1 ++ f :: l2 ∧ f.name = n ∧ f.value = v ∧
        ∀ g ∈ l1, g.name ≠ n := by
  induction fs with
  | nil =>
    simp only [getFields]
    constructor
    · intro h; simp at h
    · rintro ⟨l1, f, l2, habs, -⟩
      exact absurd habs (by simp)
  | cons f0 fs ihf =>
    unfold getFields
    by_cases h : f0.name = n
    · simp only [if_pos h, Option.some.injEq]
      constructor
      · intro hv
        exact ⟨[], f0, fs, by simp, h, hv, by simp⟩
      · rintro ⟨l1, f, l2, hsplit, hname, hval, hnone⟩
        cases l1 with
        | nil =>
          simp only [List.nil_append, List.cons.injEq] at hsplit
          rw [← hsplit.1] at hval
          exact hval
        | cons g l1 =>
          simp only [List.cons_append, List.cons.injEq] at hsplit
          exact absurd (hsplit.1 ▸ h) (hnone g (by simp))
    · simp only [if_neg h, ihf]
      constructor
      · rintro ⟨l1, f, l2, hsplit, hname, hval, hnone⟩
        refine ⟨f0 :: l1, f, l2, by rw [hsplit]; simp, hname, hval, ?_⟩
        intro g hg
        rcases List.mem_cons.mp hg with hg | hg
        · rw [hg]; exact h
        · exact hnone g hg
      · rintro ⟨l1, f, l2, hsplit, hname, hval, hnone⟩
        cases l1 with
        | nil =>
          simp only [List.nil_append, List.cons.injEq] at hsplit
          exact absurd (hsplit.1 ▸ hname) h
        | cons g l1 =>
          simp only [List.cons_append, List.cons.injEq] at hsplit
          refine ⟨l1, f, l2, hsplit.2, hname, hval, ?_⟩
          intro g2 hg2
          exact hnone g2 (List.mem_cons_of_mem _ hg2)


/-- C1 counterexample: on the lexically classifiable input `"A: x\n b"`
(a continuation line not terminated by a newline) `Deb822::from_str`
panics: the trailing-newline trim at line 188 pops `'b'`, not `'\n'`. -/
theorem C1_trim_panic_counterexample :
    from_str "A: x\n b" = PResult.panicked := by decide

/-- C1 (amended): the assembler never panics on a token sequence whose
kinds are the eight tokenizer kinds, whose `NEWLINE` texts end in `'\n'`,
and in which every `VALUE` token is immediately followed by a `NEWLINE`
token (as in tokenized input whose lines are all newline-terminated); it
returns `Ok` or `Err`.  Without the last condition — input ending inside
a continuation line — the trim assertion fails. -/
theorem C1_no_panic_amended (ts : List Token) (hk : kindsOK ts = true)
    (hn : nlOK ts = true) (hv : valueNL ts = true) :
    fromTokens ts ≠ PResult.panicked :=
  mainLoop_no_panic ts [] [] .top hk hn hv trivial

/-- C1 witness: the hypotheses of `C1_no_panic_amended` hold of the
tokens of `"A: x\n b\n"` and the parse indeed does not panic. -/
theorem C1_no_panic_witness :
    kindsOK (lexSpec ("A: x\n b\n".toList)) = true ∧
      nlOK (lexSpec ("A: x\n b\n".toList)) = true ∧
      valueNL (lexSpec ("A: x\n b\n".toList)) = true ∧
      fromTokens (lexSpec ("A: x\n b\n".toList)) ≠ PResult.panicked :=
  ⟨by decide, by decide, by decide,
    C1_no_panic_amended _ (by decide) (by decide) (by decide)⟩

/-- C2 counterexample: a whitespace-only continuation line makes the
value of the parsed field end with a newline: `"A: x\n \n"` parses to
the single field `A` with value `"x\n"`. -/
theorem C2_trailing_newline_counterexample :
    from_str "A: x\n \n" =
        PResult.ok ⟨[⟨[⟨['A'], ['x', '\n']⟩]⟩]⟩ ∧
      (['x', '\n'] : Str).getLast? = some '\n' := by
  constructor
  · decide
  · decide

/-- C2 (amended): when every `NEWLINE` token carries a terminator-shaped
text, `VALUE` texts contain no `'\n'`, every `VALUE` and `COMMENT` token
is followed by a `NEWLINE`, and every `INDENT` is followed by a nonempty
`VALUE` (no blank continuation lines), a successful parse yields only
field values with no trailing newline.  A blank continuation line (the
counterexample) breaks the property. -/
theorem C2_no_trailing_newline_amended (ts : List Token) (d : Deb822)
    (hs : nlStrict ts = true) (hvn : valuesNoNl ts = true)
    (hvl : valueNL ts = true) (hcm : commentNL ts = true)
    (hin : indentVal ts = true) (hok : fromTokens ts = PResult.ok d) :
    ∀ p ∈ d.paragraphs, goodFields p.fields :=
  mainLoop_good_values ts [] [] .top d hs hvn hvl hcm hin trivial
    (by intro p hp; simp at hp) (by intro f hf; simp at hf) hok

/-- C2 witness: the hypotheses of `C2_no_trailing_newline_amended` hold
of the tokens of `"A: x\n b\nB: y\n"` and every parsed value indeed has
no trailing newline. -/
theorem C2_no_trailing_newline_witness :
    nlStrict (lexSpec ("A: x\n b\nB: y\n".toList)) = true ∧
      valuesNoNl (lexSpec ("A: x\n b\nB: y\n".toList)) = true ∧
      valueNL (lexSpec ("A: x\n b\nB: y\n".toList)) = true ∧
      commentNL (lexSpec ("A: x\n b\nB: y\n".toList)) = true ∧
      indentVal (lexSpec ("A: x\n b\nB: y\n".toList)) = true ∧
      fromTokens (lexSpec ("A: x\n b\nB: y\n".toList)) =
        PResult.ok ⟨[⟨[⟨['A'], ['x', '\n', 'b']⟩, ⟨['B'], ['y']⟩]⟩]⟩ ∧
      ∀ p ∈ (Deb822.mk [⟨[⟨['A'], ['x', '\n', 'b']⟩, ⟨['B'], ['y']⟩]⟩]).paragraphs,
        goodFields p.fields :=
  ⟨by decide, by decide, by decide, by decide, by decide, by decide,
    C2_no_trailing_newline_amended (lexSpec ("A: x\n b\nB: y\n".toList)) _
      (by decide) (by decide) (by decide) (by decide) (by decide) (by decide)⟩


/-- C3 counterexample: two `VALUE` tokens before the terminating
`NEWLINE` do not concatenate — line 145 assigns, so the last one wins:
the parsed value is `"y"`, not `"xy"`. -/
theorem C3_value_overwrite_counterexample :
    fromTokens [⟨.KEY, ['A']⟩, ⟨.COLON, [':']⟩, ⟨.VALUE, ['x']⟩,
        ⟨.VALUE, ['y']⟩, ⟨.NEWLINE, ['\n']⟩] =
        PResult.ok ⟨[⟨[⟨['A'], ['y']⟩]⟩]⟩ ∧
      (['y'] : Str) ≠ ['x'] ++ ['y'] := by
  constructor
  · decide
  · decide

/-- C3 (amended): after `Key Colon`, whitespace tokens are skipped and
each `Value` token overwrites the accumulated first-line value, so the
resulting value is the text of the last `Value` token (their
concatenation only when there is exactly one); a token that is neither
`Whitespace`, `Value` nor `Newline` right after the colon, or neither
`Value` nor `Newline` after a value, yields `Err(UnexpectedToken)` with
that token's kind and text; and a stream ending where the `Colon` is
expected yields `Err(UnexpectedEof)`. -/
theorem C3_first_line_amended :
    (∀ (k c n v : Str) (ws vs : List Str),
      fromTokens (⟨.KEY, k⟩ :: ⟨.COLON, c⟩ ::
          (ws.map (fun w => Token.mk .WHITESPACE w) ++
            ((v :: vs).map (fun w => Token.mk .VALUE w) ++ [⟨.NEWLINE, n⟩]))) =
        PResult.ok ⟨[⟨[⟨k, vs.getLastD v⟩]⟩]⟩) ∧
    (∀ (t : Token) (rest : List Token) (pars : List Paragraph)
        (cur : List Field) (k : Str),
      t.kind ≠ SyntaxKind.WHITESPACE → t.kind ≠ SyntaxKind.VALUE →
        t.kind ≠ SyntaxKind.NEWLINE →
        mainLoop (t :: rest) pars cur (.skipWS k) =
          PResult.err (.UnexpectedToken t.kind t.text)) ∧
    (∀ (t : Token) (rest : List Token) (pars : List Paragraph)
        (cur : List Field) (k v : Str),
      t.kind ≠ SyntaxKind.VALUE → t.kind ≠ SyntaxKind.NEWLINE →
        mainLoop (t :: rest) pars cur (.firstLine k v) =
          PResult.err (.UnexpectedToken t.kind t.text)) ∧
    (∀ (k : Str) (pars : List Paragraph) (cur : List Field),
      mainLoop [⟨.KEY, k⟩] pars cur .top = PResult.err Error.UnexpectedEof) := by
  refine ⟨?_, err_skipWS, err_firstLine, fun k pars cur => rfl⟩
  intro k c n v ws vs
  unfold fromTokens
  simp only [mainLoop]
  rw [if_true]
  rw [skipWS_run]
  simp only [List.map_cons, List.cons_append, mainLoop, List.append_eq]
  rw [firstLine_run]
  simp only [mainLoop, atEof, finishEof]
  rw [popChar_endsNl (endsNl_concat _)]
  simp [finalize, List.dropLast_concat]

/-- C3 witness: a concrete instance of the first-line rule with one
whitespace token and two value tokens. -/
theorem C3_first_line_witness :
    fromTokens [⟨.KEY, ['A']⟩, ⟨.COLON, [':']⟩, ⟨.WHITESPACE, [' ']⟩,
        ⟨.VALUE, ['x']⟩, ⟨.VALUE, ['z']⟩, ⟨.NEWLINE, ['\n']⟩] =
      PResult.ok ⟨[⟨[⟨['A'], ['z']⟩]⟩]⟩ := by
  have h := C3_first_line_amended.1 ['A'] [':'] ['\n'] ['x'] [[' ']] [['z']]
  simpa using h

/-- C4 counterexample: a top-level comment line between a field's
continuation lines aborts the parse (`UnexpectedToken INDENT`) even
though the same input without the comment line parses fine, so a comment
inside a continuation block is not dropped as if absent. -/
theorem C4_continuation_comment_counterexample :
    from_str "A: x\n b\n#c\n c\n" =
        PResult.err (.UnexpectedToken .INDENT [' ']) ∧
      from_str "A: x\n b\n c\n" =
        PResult.ok ⟨[⟨[⟨['A'], ['x', '\n', 'b', '\n', 'c']⟩]⟩]⟩ := by
  constructor
  · decide
  · decide

/-- C4 (amended): a `'#'`-comment line at top level — between fields or
paragraphs, outside continuation accumulation — is dropped entirely: the
assembler skips the `COMMENT` token and its terminating `NEWLINE` and the
parse proceeds as if the comment line were absent.  Inside a continuation
block a comment line instead ends the value and the following `Indent`
aborts the parse (the counterexample). -/
theorem C4_comment_amended :
    (∀ (ct nt : Str) (rest : List Token) (pars : List Paragraph)
        (cur : List Field),
      mainLoop (⟨.COMMENT, ct⟩ :: ⟨.NEWLINE, nt⟩ :: rest) pars cur .top =
        mainLoop rest pars cur .top) ∧
    (∀ c s : Str, '\n' ∉ c → ('#' :: c).getLast? ≠ some '\r' →
      fromTokens (lexSpec (('#' :: c) ++ '\n' :: s)) =
        fromTokens (lexSpec s)) := by
  refine ⟨mainLoop_comment_skip, ?_⟩
  intro c s hnl hcr
  rw [lexSpec_comment_line c s hnl hcr]
  unfold fromTokens
  exact mainLoop_comment_skip _ _ _ _ _

/-- C4 witness: dropping the concrete comment line `"#hello"` in front
of `"A: x\n"` leaves the parse unchanged. -/
theorem C4_comment_witness :
    fromTokens (lexSpec (('#' :: "hello".toList) ++ '\n' :: "A: x\n".toList)) =
      fromTokens (lexSpec ("A: x\n".toList)) :=
  C4_comment_amended.2 "hello".toList "A: x\n".toList (by decide) (by decide)

/-- C5 counterexample: input ending right after a colon with no
terminating newline parses successfully to a field with empty value —
it does not yield `Err(UnexpectedEof)`. -/
theorem C5_colon_eof_counterexample :
    from_str "A:" = PResult.ok ⟨[⟨[⟨['A'], []⟩]⟩]⟩ ∧
      from_str "A:" ≠ PResult.err Error.UnexpectedEof := by
  constructor
  · decide
  · decide

/-- C5 (amended): `UnexpectedEof` arises only when the token stream ends
immediately after a `Key` (the last token of the stream is then that
`Key`); a stream that is exactly a `Key` yields it; and input ending
after a colon with no newline returns `Ok` with an empty value instead. -/
theorem C5_eof_amended :
    (∀ (ts : List Token) (pars : List Paragraph) (cur : List Field),
      mainLoop ts pars cur .top = PResult.err Error.UnexpectedEof →
        ts.getLast?.map Token.kind = some SyntaxKind.KEY) ∧
    (∀ (k : Str) (pars : List Paragraph) (cur : List Field),
      mainLoop [⟨.KEY, k⟩] pars cur .top = PResult.err Error.UnexpectedEof) ∧
    from_str "A:" = PResult.ok ⟨[⟨[⟨['A'], []⟩]⟩]⟩ := by
  refine ⟨?_, fun k pars cur => rfl, by decide⟩
  intro ts pars cur hok
  rcases mainLoop_eof_last_key ts pars cur .top hok with h | ⟨-, k, hm⟩
  · exact h
  · simp at hm

/-- C5 witness: the last-token-is-a-key consequence at the concrete
stream `[KEY "B"]`. -/
theorem C5_eof_witness :
    ([⟨.KEY, ['B']⟩] : List Token).getLast?.map Token.kind =
      some SyntaxKind.KEY :=
  C5_eof_amended.1 [⟨.KEY, ['B']⟩] [] [] (by decide)

/-- C6 counterexample: a forbidden token inside continuation
accumulation is reported with the enclosing field's key text, not its
own text: the offending `ERROR` token reads `"?"` but the error carries
`"A"`. -/
theorem C6_error_text_counterexample :
    fromTokens [⟨.KEY, ['A']⟩, ⟨.COLON, [':']⟩, ⟨.VALUE, ['x']⟩,
        ⟨.NEWLINE, ['\n']⟩, ⟨.INDENT, [' ']⟩, ⟨.ERROR, ['?']⟩] =
        PResult.err (.UnexpectedToken .ERROR ['A']) ∧
      (['A'] : Str) ≠ ['?'] := by
  constructor
  · decide
  · decide

/-- C6 (amended): in every forbidden position the reported kind is the
offending token's kind, and outside continuation accumulation the
reported text is the offending token's literal text; inside continuation
accumulation (line 178) the reported text is instead the enclosing
field's `Key` token text. -/
theorem C6_error_token_amended :
    (∀ (t : Token) (rest : List Token) (pars : List Paragraph)
        (cur : List Field),
      (t.kind = SyntaxKind.INDENT ∨ t.kind = SyntaxKind.COLON ∨
          t.kind = SyntaxKind.ERROR ∨ t.kind = SyntaxKind.VALUE) →
        mainLoop (t :: rest) pars cur .top =
          PResult.err (.UnexpectedToken t.kind t.text)) ∧
    (∀ (t : Token) (rest : List Token) (pars : List Paragraph)
        (cur : List Field) (k : Str),
      t.kind ≠ SyntaxKind.COLON →
        mainLoop (t :: rest) pars cur (.expectColon k) =
          PResult.err (.UnexpectedToken t.kind t.text)) ∧
    (∀ (t : Token) (rest : List Token) (pars : List Paragraph)
        (cur : List Field) (k : Str),
      t.kind ≠ SyntaxKind.WHITESPACE → t.kind ≠ SyntaxKind.VALUE →
        t.kind ≠ SyntaxKind.NEWLINE →
        mainLoop (t :: rest) pars cur (.skipWS k) =
          PResult.err (.UnexpectedToken t.kind t.text)) ∧
    (∀ (t : Token) (rest : List Token) (pars : List Paragraph)
        (cur : List Field) (k v : Str),
      t.kind ≠ SyntaxKind.VALUE → t.kind ≠ SyntaxKind.NEWLINE →
        mainLoop (t :: rest) pars cur (.firstLine k v) =
          PResult.err (.UnexpectedToken t.kind t.text)) ∧
    (∀ (t : Token) (rest : List Token) (pars : List Paragraph)
        (cur : List Field) (k v : Str),
      t.kind ≠ SyntaxKind.VALUE → t.kind ≠ SyntaxKind.COMMENT →
        t.kind ≠ SyntaxKind.NEWLINE → t.kind ≠ SyntaxKind.KEY →
        mainLoop (t :: rest) pars cur (.contInner k v) =
          PResult.err (.UnexpectedToken t.kind k)) :=
  ⟨err_top, err_expectColon, err_skipWS, err_firstLine, err_contInner⟩

/-- C6 witness: a stray `VALUE` token at top level is reported with its
own kind and text. -/
theorem C6_error_token_witness :
    mainLoop [⟨.VALUE, ['z']⟩] [] [] .top =
      PResult.err (.UnexpectedToken .VALUE ['z']) :=
  C6_error_token_amended.1 ⟨.VALUE, ['z']⟩ [] [] []
    (Or.inr (Or.inr (Or.inr rfl)))


/-- C7: evaluating the `Display` implementations shows the bug — the
format string of `writeln!` at line 72 itself ends in `'\n'`, so every
field is followed by a blank line and consecutive paragraphs end up
separated by two blank lines, not the claimed plain `"Name: Value"`
lines with a single blank line between paragraphs. -/
theorem C7_display_double_newline :
    Deb822.fmt ⟨[⟨[⟨['A'], ['x']⟩, ⟨['B'], ['y']⟩]⟩, ⟨[⟨['C'], ['z']⟩]⟩]⟩ =
        "A: x\n\nB: y\n\n\nC: z\n\n".toList ∧
      Deb822.fmt ⟨[⟨[⟨['A'], ['x']⟩, ⟨['B'], ['y']⟩]⟩, ⟨[⟨['C'], ['z']⟩]⟩]⟩ ≠
        "A: x\nB: y\n\nC: z\n".toList := by
  constructor
  · decide
  · decide

/-- C8: every paragraph of a successfully parsed document has at least
one field: blank lines close a paragraph only when it is nonempty, and
the final paragraph is appended only when nonempty. -/
theorem C8_nonempty_paragraphs (ts : List Token) (d : Deb822)
    (hok : fromTokens ts = PResult.ok d) :
    ∀ p ∈ d.paragraphs, p.fields ≠ [] :=
  mainLoop_nonempty_paragraphs ts [] [] .top d (by intro p hp; simp at hp) hok

/-- C8 witness: the two stanzas of `"A: x\n\n\n\nB: y\n"` (with a run of
blank lines between them) parse into exactly two nonempty paragraphs. -/
theorem C8_nonempty_paragraphs_witness :
    fromTokens (lexSpec ("A: x\n\n\n\nB: y\n".toList)) =
        PResult.ok ⟨[⟨[⟨['A'], ['x']⟩]⟩, ⟨[⟨['B'], ['y']⟩]⟩]⟩ ∧
      ∀ p ∈ (Deb822.mk [⟨[⟨['A'], ['x']⟩]⟩, ⟨[⟨['B'], ['y']⟩]⟩]).paragraphs,
        p.fields ≠ [] :=
  ⟨by decide,
    C8_nonempty_paragraphs (lexSpec ("A: x\n\n\n\nB: y\n".toList)) _ (by decide)⟩

/-- C9: `Paragraph::get` returns `none` exactly when no field has the
queried name (exact, case-sensitive comparison), and `some v` exactly
when the fields split as `l1 ++ f :: l2` with `f` the first field named
`name` (no field of `l1` matches) and `v` its value; duplicate field
names are retained distinctly in order, as the concrete parse of
`"A: 1\nA: 2\n"` shows, with lookup returning the first. -/
theorem C9_get_first_match :
    (∀ (p : Paragraph) (n : Str),
      p.get n = none ↔ ∀ f ∈ p.fields, f.name ≠ n) ∧
    (∀ (p : Paragraph) (n v : Str),
      p.get n = some v ↔
        ∃ l1 f l2, p.fields = l1 ++ f :: l2 ∧ f.name = n ∧ f.value = v ∧
          ∀ g ∈ l1, g.name ≠ n) ∧
    from_str "A: 1\nA: 2\n" =
      PResult.ok ⟨[⟨[⟨['A'], ['1']⟩, ⟨['A'], ['2']⟩]⟩]⟩ ∧
    (Paragraph.mk [⟨['A'], ['1']⟩, ⟨['A'], ['2']⟩]).get ['A'] = some ['1'] :=
  ⟨fun p n => getFields_none p.fields n,
    fun p n v => getFields_some p.fields n v, by decide, by decide⟩

/-- C9 witness: the none-characterization applied to a concrete
paragraph whose single field has a different name. -/
theorem C9_get_first_match_witness :
    (Paragraph.mk [⟨['B'], ['2']⟩]).get ['A'] = none :=
  (C9_get_first_match.1 ⟨[⟨['B'], ['2']⟩]⟩ ['A']).mpr (by decide)

/-- C10 counterexample: with mixed line endings, the separator embedded
before the continuation line `"c"` is the preceding line's `"\r\n"`, not
`"c"`'s own `"\n"`: the value is `"x\nb\r\nc"`, not `"x\nb\nc"`. -/
theorem C10_separator_counterexample :
    fromTokens [⟨.KEY, ['A']⟩, ⟨.COLON, [':']⟩, ⟨.VALUE, ['x']⟩,
        ⟨.NEWLINE, ['\n']⟩, ⟨.INDENT, [' ']⟩, ⟨.VALUE, ['b']⟩,
        ⟨.NEWLINE, ['\r', '\n']⟩, ⟨.INDENT, [' ']⟩, ⟨.VALUE, ['c']⟩,
        ⟨.NEWLINE, ['\n']⟩] =
        PResult.ok ⟨[⟨[⟨['A'], ['x', '\n', 'b', '\r', '\n', 'c']⟩]⟩]⟩ ∧
      (['x', '\n', 'b', '\r', '\n', 'c'] : Str) ≠
        ['x', '\n', 'b', '\n', 'c'] := by
  constructor
  · decide
  · decide

/-- C10 (amended): for a field with first-line value `v0` and
continuation lines `(indentᵢ, vᵢ, nlᵢ)`, the parsed value is
`v0 ++ "\n" ++ v₁ ++ nl₁ ++ v₂ ++ nl₂ ++ …` with its last character
removed: the separator after the first value line is always the single
`'\n'` pushed at line 154 (the first line's own newline text is
discarded), each continuation line's `NEWLINE` text is embedded verbatim
after that line's content — so the separator before a continuation line
is the preceding line's terminator — and the final trim removes exactly
one character. -/
theorem C10_value_shape_amended (k c v0 n0 : Str)
    (conts : List (Str × Str × Str))
    (h : endsNl (v0 ++ '\n' :: contBody conts) = true) :
    fromTokens (⟨.KEY, k⟩ :: ⟨.COLON, c⟩ :: ⟨.VALUE, v0⟩ :: ⟨.NEWLINE, n0⟩ ::
        contTokens conts) =
      PResult.ok ⟨[⟨[⟨k, (v0 ++ '\n' :: contBody conts).dropLast⟩]⟩]⟩ := by
  unfold fromTokens
  simp only [mainLoop]
  rw [contLoop_run]
  have h2 : (v0 ++ ['\n']) ++ contBody conts = v0 ++ '\n' :: contBody conts := by
    simp
  unfold finishEof
  rw [h2, popChar_endsNl h]
  simp [finalize]

/-- C10 witness: the value-shape rule at a concrete field with one CRLF
continuation line. -/
theorem C10_value_shape_witness :
    fromTokens (⟨.KEY, ['A']⟩ :: ⟨.COLON, [':']⟩ :: ⟨.VALUE, ['x']⟩ ::
        ⟨.NEWLINE, ['\n']⟩ :: contTokens [([' '], ['b'], ['\r', '\n'])]) =
      PResult.ok ⟨[⟨[⟨['A'],
        ((['x'] ++ '\n' :: contBody [([' '], ['b'], ['\r', '\n'])]).dropLast)⟩]⟩]⟩ :=
  C10_value_shape_amended ['A'] [':'] ['x'] ['\n']
    [([' '], ['b'], ['\r', '\n'])] (by decide)

end DebControl
